import Mathlib

/-
Verification of the fastcsv2json++ converter core (src/fastcsv2jsonxx.cpp).

The embedding models the stream pipeline of GenerateJson:
  GetLine -> character filter (-r / -e) -> TokenizeLine/Tokenize -> record
  validation -> incremental JSON emission.
Lines are lists of characters (what std::getline yields, newline stripped);
the whole input is the list of its lines.  The fixed token array
`std::array<std::string, MAX_TOKEN_COUNT>` is modelled by the list of the
string values written during one call of Tokenize, together with the list of
array indices that the tokenizing loop assigns; two flags record the two
operations of the source whose C++ semantics is undefined:
  - ubPop   : `tokens[column - 1].pop_back()` applied to an empty string;
  - ubWrite : an assignment `tokens[column++] = ...` with column out of the
              array bounds (the loop has no bounds check).
Apart from these flags every definition follows the straight-line text of the
source function it is named after.
-/

namespace FastCsv2Json

/-- constexpr int MAX_TOKEN_COUNT = 4096 (fastcsv2jsonxx.cpp line 46). -/
def MAX_TOKEN_COUNT : Nat := 4096

/-- Core of the find/substr loop of Tokenize (lines 78-92): split a line at
every occurrence of the one-character delimiter.  The pair holds the first
token and the remaining tokens, so the token list is never empty, exactly as
the loop plus the unconditional final `tokens[column++] = substr(start)`. -/
def cppSplitAux (d : Char) : List Char → List Char × List (List Char)
  | [] => ([], [])
  | c :: cs =>
    let r := cppSplitAux d cs
    if c = d then ([], r.1 :: r.2) else (c :: r.1, r.2)

/-- The full token sequence produced by the find/substr loop of Tokenize. -/
def cppSplit (d : Char) (l : List Char) : List (List Char) :=
  (cppSplitAux d l).1 :: (cppSplitAux d l).2

/-- Value of `tokens[column - 1]` after the loop: the last produced token. -/
def lastTok : List (List Char) → List Char
  | [] => []
  | [t] => t
  | _ :: ts => lastTok ts

/-- The tokens before the last one (array slots 0 .. column-2). -/
def frontToks : List (List Char) → List (List Char)
  | [] => []
  | [_] => []
  | t :: ts => t :: frontToks ts

/-- Result of one call of Tokenize (lines 72-96). -/
structure TokResult where
  tokens : List (List Char)
  count : Nat
  ubPop : Bool
  ubWrite : Bool
deriving DecidableEq

/-- Tokenize (lines 72-96): split `inputline` on the delimiter, writing
`tokens[column++]` for each piece, then `tokens[column - 1].pop_back()`,
returning `column`.  `tokens` holds the final values of the written slots,
`count` the returned value, `ubPop` whether pop_back hit an empty string and
`ubWrite` whether the loop wrote past slot MAX_TOKEN_COUNT - 1. -/
def Tokenize (d : Char) (inputline : List Char) : TokResult :=
  let parts := cppSplit d inputline
  { tokens := frontToks parts ++ [(lastTok parts).dropLast]
    count := parts.length
    ubPop := (lastTok parts).isEmpty
    ubWrite := decide (MAX_TOKEN_COUNT < parts.length) }

/-- Array indices assigned by the tokenizing loop of Tokenize: slot `column`
for column = 0, 1, ..., count - 1 (the final token write included). -/
def tokenizeWriteIndices (d : Char) (inputline : List Char) : List Nat :=
  List.range (cppSplit d inputline).length

/-- Result of one call of TokenizeLine (lines 100-130): the returned token
count, the header vector and validtokencount after the call, and the
Tokenize result it consumed. -/
structure TLResult where
  ntokens : Nat
  header : List (List Char)
  validtokencount : Nat
  tok : TokResult
deriving DecidableEq

/-- TokenizeLine (lines 100-130): append the sentinel `" "` to the line,
tokenize, report 0 when the count is 0 or exceeds MAX_TOKEN_COUNT, and on
line 1 copy the tokens verbatim into the header and set validtokencount. -/
def TokenizeLine (d : Char) (line_counter : Nat) (header : List (List Char))
    (validtokencount : Nat) (line : List Char) : TLResult :=
  let tok := Tokenize d (line ++ [' '])
  if tok.count = 0 ∨ MAX_TOKEN_COUNT < tok.count then
    ⟨0, header, validtokencount, tok⟩
  else if line_counter = 1 then
    ⟨tok.count, header ++ tok.tokens, tok.count, tok⟩
  else
    ⟨tok.count, header, validtokencount, tok⟩

/-- The replace-with-space pass of GenerateJson (lines 187-191): one
`std::ranges::replace (inputline, schar, ' ')` per configured character. -/
def applyReplace (replacewithspace : List Char) (line : List Char) : List Char :=
  replacewithspace.foldl
    (fun l schar => l.map (fun c => if c = schar then ' ' else c)) line

/-- The erase pass of GenerateJson (lines 194-198): one
`std::erase (inputline, echar)` per configured character. -/
def applyErase (erasechars : List Char) (line : List Char) : List Char :=
  erasechars.foldl (fun l echar => l.filter (fun c => c != echar)) line

/-- The whole character filter, replace pass first, erase pass second. -/
def CharFilter (replacewithspace erasechars : List Char) (line : List Char) :
    List Char :=
  applyErase erasechars (applyReplace replacewithspace line)

/-- `header[counter]` / `tokens[counter]`: positional read of a field list. -/
def atIdx : List (List Char) → Nat → List Char
  | [], _ => []
  | t :: _, 0 => t
  | _ :: ts, n + 1 => atIdx ts n

/-- The record-building loop of GenerateJson (lines 209-218): for counter
from the given start while counter < ntokens, append
`'"' header[counter] '":"' tokens[counter] '"'` and a comma unless this is
the last field.  The fuel argument bounds the iteration count; GenerateJson
starts it at ntokens, which is exact. -/
def buildEntries (header tokens : List (List Char)) (ntokens : Nat) :
    Nat → Nat → List Char
  | _, 0 => []
  | counter, fuel + 1 =>
    if counter < ntokens then
      ('"' :: atIdx header counter
        ++ '"' :: ':' :: '"' :: atIdx tokens counter ++ ['"']
        ++ (if 1 < ntokens - counter then [','] else []))
        ++ buildEntries header tokens ntokens (counter + 1) fuel
    else []

/-- One JSON record as built in `data.outputline` (lines 208-220). -/
def buildObject (header tokens : List (List Char)) (ntokens : Nat) :
    List Char :=
  '{' :: buildEntries header tokens ntokens 0 ntokens ++ ['}']

/-- The configuration consumed by the conversion core: delimiter (default
comma) and the two filter character sets (CSV2JSONData fields). -/
structure Config where
  delimiter : Char
  replacewithspace : List Char
  erasechars : List Char
deriving DecidableEq

/-- Default configuration: comma delimiter, both filter sets empty. -/
def defaultConfig : Config := ⟨',', [], []⟩

/-- The mutable run state of CSV2JSONData that survives across lines:
header, validtokencount, line_counter, plus the accumulated UB flag. -/
structure DState where
  header : List (List Char)
  validtokencount : Nat
  line_counter : Nat
  ub : Bool
deriving DecidableEq

/-- CSV2JSONData default-constructed state at the start of GenerateJson. -/
def initialState : DState := ⟨[], 0, 0, false⟩

/-- The TokenizeLine call made for one raw line inside the loop of
GenerateJson: the line counter is the incremented one (GetLine increments
before the body runs) and the line has been through the character filter. -/
def lineResult (cfg : Config) (s : DState) (rawline : List Char) : TLResult :=
  TokenizeLine cfg.delimiter (s.line_counter + 1) s.header s.validtokencount
    (CharFilter cfg.replacewithspace cfg.erasechars rawline)

/-- One iteration of the loop of GenerateJson (lines 184-226) on a line that
GetLine delivered with nonzero size: filter, write `",\n"` when the line
counter exceeds 2, tokenize, and when validtokencount equals the returned
count build the record, sending it only when the line counter exceeds 1.
Returns the successor state and the characters written to the output. -/
def processLine (cfg : Config) (s : DState) (rawline : List Char) :
    DState × List Char :=
  let r := lineResult cfg s rawline
  let sep : List Char := if 2 < s.line_counter + 1 then [',', '\n'] else []
  let obj : List Char :=
    if r.validtokencount = r.ntokens ∧ 1 < s.line_counter + 1 then
      buildObject r.header r.tok.tokens r.ntokens
    else []
  (⟨r.header, r.validtokencount, s.line_counter + 1,
    s.ub || r.tok.ubPop || r.tok.ubWrite⟩, sep ++ obj)

/-- The while (GetLine (data)) loop.  GetLine increments line_counter, reads
one line and returns its size, 0 at end of input *or for an empty line*
(`std::getline (...) ? inputline.size () : 0`, line 140); the loop stops at
the first zero, so an empty line ends the run and later lines are not read. -/
def runLines (cfg : Config) : DState → List (List Char) → DState × List Char
  | s, [] => (⟨s.header, s.validtokencount, s.line_counter + 1, s.ub⟩, [])
  | s, raw :: rest =>
    if raw = [] then
      (⟨s.header, s.validtokencount, s.line_counter + 1, s.ub⟩, [])
    else
      let p := processLine cfg s raw
      let q := runLines cfg p.1 rest
      (q.1, p.2 ++ q.2)

/-- GenerateJson (lines 146-239) restricted to its conversion core: write
`'['`, run the loop over the input lines, write `']'`.  Returns the full
output character stream and the accumulated UB flag. -/
def GenerateJson (cfg : Config) (lines : List (List Char)) :
    List Char × Bool :=
  let r := runLines cfg initialState lines
  ('[' :: r.2 ++ [']'], r.1.ub)

/-- Spec-side form of one serialized field pair, from the words of section
4.5 of the specification: `"colI":"valI"` with the value verbatim. -/
def jsonPair (name value : List Char) : List Char :=
  '"' :: name ++ '"' :: ':' :: '"' :: value ++ ['"']

/-- Spec-side comma join: a single comma between consecutive entries. -/
def joinComma : List (List Char) → List Char
  | [] => []
  | [p] => p
  | p :: ps => p ++ ',' :: joinComma ps

/-- Spec-side JSON object, from the words of section 4.5: the pairs of
header field i with token i, in order, comma separated, inside braces. -/
def specObject (header tokens : List (List Char)) : List Char :=
  '{' :: joinComma (List.zipWith jsonPair header tokens) ++ ['}']

/-- Spec-side character filter, from the words of section 4.1: replace every
occurrence of any replace-set character with one space, then remove every
occurrence of any erase-set character. -/
def specFilter (replaceSet eraseSet : List Char) (line : List Char) :
    List Char :=
  (line.map (fun c => if c ∈ replaceSet then ' ' else c)).filter
    (fun c => !(eraseSet.contains c))

/- Structural lemmas on the tokenizer pieces. -/

@[simp]
theorem lastTok_nil : lastTok [] = [] := rfl

@[simp]
theorem lastTok_single (t : List Char) : lastTok [t] = t := rfl

@[simp]
theorem lastTok_cons_cons (a b : List Char) (l : List (List Char)) :
    lastTok (a :: b :: l) = lastTok (b :: l) := rfl

@[simp]
theorem frontToks_nil : frontToks [] = [] := rfl

@[simp]
theorem frontToks_single (t : List Char) : frontToks [t] = [] := rfl

@[simp]
theorem frontToks_cons_cons (a b : List Char) (l : List (List Char)) :
    frontToks (a :: b :: l) = a :: frontToks (b :: l) := rfl

theorem lastTok_append_single (ps : List (List Char)) (t : List Char) :
    lastTok (ps ++ [t]) = t := by
  induction ps with
  | nil => rfl
  | cons p ps ih =>
    cases ps with
    | nil => rfl
    | cons q qs => simpa using ih

theorem frontToks_append_single (ps : List (List Char)) (t : List Char) :
    frontToks (ps ++ [t]) = ps := by
  induction ps with
  | nil => rfl
  | cons p ps ih =>
    cases ps with
    | nil => rfl
    | cons q qs => simpa using ih

theorem frontToks_append_lastTok (ps : List (List Char)) (h : ps ≠ []) :
    frontToks ps ++ [lastTok ps] = ps := by
  induction ps with
  | nil => exact absurd rfl h
  | cons p ps ih =>
    cases ps with
    | nil => rfl
    | cons q qs => simpa using ih (by simp)

theorem length_of_front_last (ps : List (List Char)) (h : ps ≠ []) :
    (frontToks ps).length + 1 = ps.length := by
  conv_rhs => rw [← frontToks_append_lastTok ps h]
  simp

@[simp]
theorem cppSplit_nil (d : Char) : cppSplit d [] = [[]] := rfl

theorem cppSplit_eq_aux (d : Char) (l : List Char) :
    cppSplit d l = (cppSplitAux d l).1 :: (cppSplitAux d l).2 := rfl

theorem cppSplit_ne_nil (d : Char) (l : List Char) : cppSplit d l ≠ [] := by
  simp [cppSplit]

theorem cppSplit_cons_delim (d : Char) (cs : List Char) :
    cppSplit d (d :: cs) = [] :: cppSplit d cs := by
  simp [cppSplit, cppSplitAux]

theorem cppSplit_cons_nondelim (d c : Char) (cs : List Char) (h : c ≠ d) :
    cppSplit d (c :: cs) =
      (c :: (cppSplitAux d cs).1) :: (cppSplitAux d cs).2 := by
  simp [cppSplit, cppSplitAux, h]

/-- Splitting a line followed by one non-delimiter character appends that
character to the final token and changes nothing else. -/
theorem cppSplit_append_nondelim (d c : Char) (hc : c ≠ d) (l : List Char) :
    cppSplit d (l ++ [c]) =
      frontToks (cppSplit d l) ++ [lastTok (cppSplit d l) ++ [c]] := by
  induction l with
  | nil => simp [cppSplit, cppSplitAux, hc]
  | cons x xs ih =>
    by_cases hx : x = d
    · rw [hx, List.cons_append, cppSplit_cons_delim, cppSplit_cons_delim, ih]
      rw [cppSplit_eq_aux d xs]
      rcases h2 : (cppSplitAux d xs).2 with _ | ⟨u, us⟩ <;>
        simp [h2]
    · rw [List.cons_append, cppSplit_cons_nondelim d x _ hx,
        cppSplit_cons_nondelim d x xs hx]
      have ih2 := ih
      rw [cppSplit_eq_aux d (xs ++ [c]), cppSplit_eq_aux d xs] at ih2
      rcases h2 : (cppSplitAux d xs).2 with _ | ⟨u, us⟩
      · rw [h2] at ih2
        simp only [frontToks_single, lastTok_single, List.nil_append] at ih2
        obtain ⟨e1, e2⟩ := List.cons.inj ih2
        simp [e1, e2]
      · rw [h2] at ih2
        simp only [frontToks_cons_cons, lastTok_cons_cons,
          List.cons_append] at ih2
        obtain ⟨e1, e2⟩ := List.cons.inj ih2
        simp [e1, e2, h2]

/-- Net effect of the sentinel mechanism of TokenizeLine/Tokenize for any
delimiter other than the sentinel character: the produced tokens are exactly
the plain split of the raw line, the count is its length, and the final
pop_back never hits an empty token. -/
theorem tokenize_sentinel (d : Char) (hd : d ≠ ' ') (l : List Char) :
    (Tokenize d (l ++ [' '])).tokens = cppSplit d l
    ∧ (Tokenize d (l ++ [' '])).count = (cppSplit d l).length
    ∧ (Tokenize d (l ++ [' '])).ubPop = false := by
  have hs : cppSplit d (l ++ [' ']) =
      frontToks (cppSplit d l) ++ [lastTok (cppSplit d l) ++ [' ']] :=
    cppSplit_append_nondelim d ' ' (Ne.symm hd) l
  have hne := cppSplit_ne_nil d l
  refine ⟨?_, ?_, ?_⟩
  · show frontToks (cppSplit d (l ++ [' '])) ++
        [(lastTok (cppSplit d (l ++ [' ']))).dropLast] = cppSplit d l
    rw [hs, frontToks_append_single, lastTok_append_single,
      List.dropLast_concat, frontToks_append_lastTok _ hne]
  · show (cppSplit d (l ++ [' '])).length = (cppSplit d l).length
    rw [hs]
    simp [← length_of_front_last (cppSplit d l) hne]
  · show (lastTok (cppSplit d (l ++ [' ']))).isEmpty = false
    rw [hs, lastTok_append_single]
    rcases lastTok (cppSplit d l) with _ | ⟨a, as⟩ <;> rfl

theorem cppSplit_replicate_delim (d : Char) (n : Nat) (rest : List Char) :
    cppSplit d (List.replicate n d ++ rest) =
      List.replicate n [] ++ cppSplit d rest := by
  induction n with
  | zero => simp
  | succ n ih =>
    rw [List.replicate_succ, List.cons_append, cppSplit_cons_delim, ih,
      List.replicate_succ, List.cons_append]

theorem cppSplit_comma_line_length :
    (cppSplit ',' (List.replicate 4096 ',' ++ [' '])).length = 4097 := by
  rw [cppSplit_replicate_delim]
  have h1 : cppSplit ',' [' '] = [[' ']] := rfl
  rw [h1, List.length_append, List.length_replicate]
  rfl

/- The character filter: folding the per-character passes equals the
one-pass description of section 4.1. -/

theorem applyReplace_eq (rs : List Char) (l : List Char) :
    applyReplace rs l = l.map (fun c => if c ∈ rs then ' ' else c) := by
  induction rs generalizing l with
  | nil => simp [applyReplace]
  | cons r rs ih =>
    show applyReplace rs (l.map fun c => if c = r then ' ' else c) = _
    rw [ih, List.map_map]
    refine List.map_congr_left (fun c _ => ?_)
    by_cases hc : c = r
    · simp [hc, Function.comp]
    · simp only [Function.comp, hc, if_false, List.mem_cons]
      by_cases hm : c ∈ rs <;> simp [hm, hc]

theorem applyErase_eq (es : List Char) (l : List Char) :
    applyErase es l = l.filter (fun c => !(es.contains c)) := by
  induction es generalizing l with
  | nil => simp [applyErase, List.filter_true]
  | cons e es ih =>
    show applyErase es (l.filter fun c => c != e) = _
    rw [ih, List.filter_filter]
    refine List.filter_congr (fun c _ => ?_)
    simp only [List.contains_cons, Bool.not_or, bne]
    rw [Bool.and_comm, BEq.comm]

theorem charFilter_eq (rs es l : List Char) :
    CharFilter rs es l = specFilter rs es l := by
  unfold CharFilter specFilter
  rw [applyReplace_eq, applyErase_eq]

/- The record-building loop versus the spec-side object description. -/

@[simp]
theorem atIdx_nil (n : Nat) : atIdx [] n = [] := by cases n <;> rfl

@[simp]
theorem atIdx_cons_zero (t : List Char) (ts : List (List Char)) :
    atIdx (t :: ts) 0 = t := rfl

@[simp]
theorem atIdx_cons_succ (t : List Char) (ts : List (List Char)) (n : Nat) :
    atIdx (t :: ts) (n + 1) = atIdx ts n := rfl

theorem buildEntries_shift (h t : List Char) (hs ts : List (List Char))
    (n f : Nat) : ∀ c : Nat,
    buildEntries (h :: hs) (t :: ts) (n + 1) (c + 1) f =
      buildEntries hs ts n c f := by
  induction f with
  | zero => intro c; rfl
  | succ f ih =>
    intro c
    show (if c + 1 < n + 1 then _ else []) = (if c < n then _ else [])
    by_cases hc : c < n
    · rw [if_pos (by omega), if_pos hc, ih (c + 1)]
      have he : n + 1 - (c + 1) = n - c := by omega
      simp [he]
    · rw [if_neg (by omega), if_neg hc]

@[simp]
theorem joinComma_nil : joinComma [] = [] := rfl

@[simp]
theorem joinComma_single (p : List Char) : joinComma [p] = p := rfl

@[simp]
theorem joinComma_cons_cons (p q : List Char) (qs : List (List Char)) :
    joinComma (p :: q :: qs) = p ++ ',' :: joinComma (q :: qs) := rfl

theorem buildEntries_spec : ∀ (hdr toks : List (List Char)),
    hdr.length ≤ toks.length →
    buildEntries hdr toks hdr.length 0 hdr.length =
      joinComma (List.zipWith jsonPair hdr toks) := by
  intro hdr
  induction hdr with
  | nil => intro toks _; rfl
  | cons h hs ih =>
    intro toks hlen
    cases toks with
    | nil => simp at hlen
    | cons t ts =>
      show (if 0 < (h :: hs).length then _ else []) = _
      rw [if_pos (by simp)]
      simp only [List.length_cons, atIdx_cons_zero]
      rw [buildEntries_shift h t hs ts hs.length hs.length 0]
      rw [ih ts (by simpa using hlen)]
      cases hs with
      | nil => simp [jsonPair]
      | cons h2 hs2 =>
        cases ts with
        | nil => simp at hlen
        | cons t2 ts2 =>
          rw [if_pos (by simp only [List.length_cons]; omega)]
          show jsonPair h t ++ [','] ++ _ = _
          simp only [List.zipWith_cons_cons, joinComma_cons_cons]
          rw [List.append_assoc, List.singleton_append]

theorem buildObject_spec (hdr toks : List (List Char)) (n : Nat)
    (hn : n = hdr.length) (hlen : hdr.length ≤ toks.length) :
    buildObject hdr toks n = specObject hdr toks := by
  subst hn
  unfold buildObject specObject
  rw [buildEntries_spec hdr toks hlen]

/- Branch analysis of TokenizeLine inside the driver loop. -/

theorem tokenize_count_pos (d : Char) (inputline : List Char) :
    0 < (Tokenize d inputline).count := by
  show 0 < (cppSplit d inputline).length
  simp [cppSplit]

theorem tokenize_tokens_length (d : Char) (inputline : List Char) :
    (Tokenize d inputline).tokens.length = (Tokenize d inputline).count := by
  show (frontToks (cppSplit d inputline) ++
      [(lastTok (cppSplit d inputline)).dropLast]).length =
    (cppSplit d inputline).length
  rw [List.length_append]
  exact length_of_front_last _ (cppSplit_ne_nil d inputline)

theorem TokenizeLine_eq (d : Char) (lc : Nat) (hdr : List (List Char))
    (vtc : Nat) (line : List Char) :
    TokenizeLine d lc hdr vtc line =
      if (Tokenize d (line ++ [' '])).count = 0
          ∨ MAX_TOKEN_COUNT < (Tokenize d (line ++ [' '])).count then
        ⟨0, hdr, vtc, Tokenize d (line ++ [' '])⟩
      else if lc = 1 then
        ⟨(Tokenize d (line ++ [' '])).count,
          hdr ++ (Tokenize d (line ++ [' '])).tokens,
          (Tokenize d (line ++ [' '])).count, Tokenize d (line ++ [' '])⟩
      else
        ⟨(Tokenize d (line ++ [' '])).count, hdr, vtc,
          Tokenize d (line ++ [' '])⟩ := rfl

theorem lineResult_tok (cfg : Config) (s : DState) (raw : List Char) :
    (lineResult cfg s raw).tok =
      Tokenize cfg.delimiter
        (CharFilter cfg.replacewithspace cfg.erasechars raw ++ [' ']) := by
  unfold lineResult
  rw [TokenizeLine_eq]
  split
  · rfl
  · split <;> rfl

theorem lineResult_not_first (cfg : Config) (s : DState) (raw : List Char)
    (h : s.line_counter ≠ 0) :
    (lineResult cfg s raw).header = s.header
    ∧ (lineResult cfg s raw).validtokencount = s.validtokencount
    ∧ ((lineResult cfg s raw).ntokens = 0
        ∨ (lineResult cfg s raw).ntokens = (lineResult cfg s raw).tok.count) := by
  have h1 : s.line_counter + 1 ≠ 1 := by omega
  rw [lineResult_tok]
  unfold lineResult
  rw [TokenizeLine_eq]
  by_cases hc : (Tokenize cfg.delimiter
      (CharFilter cfg.replacewithspace cfg.erasechars raw ++ [' '])).count = 0
      ∨ MAX_TOKEN_COUNT < (Tokenize cfg.delimiter
        (CharFilter cfg.replacewithspace cfg.erasechars raw ++ [' '])).count
  · rw [if_pos hc]
    exact ⟨rfl, rfl, Or.inl rfl⟩
  · rw [if_neg hc, if_neg h1]
    exact ⟨rfl, rfl, Or.inr rfl⟩

theorem lineResult_first_within_capacity (cfg : Config) (s : DState)
    (raw : List Char) (h0 : s.line_counter = 0)
    (hcap : (lineResult cfg s raw).tok.count ≤ MAX_TOKEN_COUNT) :
    (lineResult cfg s raw).header =
      s.header ++ (lineResult cfg s raw).tok.tokens
    ∧ (lineResult cfg s raw).validtokencount = (lineResult cfg s raw).tok.count
    ∧ (lineResult cfg s raw).ntokens = (lineResult cfg s raw).tok.count := by
  rw [lineResult_tok] at hcap ⊢
  have hpos := tokenize_count_pos cfg.delimiter
    (CharFilter cfg.replacewithspace cfg.erasechars raw ++ [' '])
  have hcond : ¬ ((Tokenize cfg.delimiter
      (CharFilter cfg.replacewithspace cfg.erasechars raw ++ [' '])).count = 0
      ∨ MAX_TOKEN_COUNT < (Tokenize cfg.delimiter
        (CharFilter cfg.replacewithspace cfg.erasechars raw ++ [' '])).count) := by
    push_neg
    exact ⟨by omega, hcap⟩
  unfold lineResult
  rw [TokenizeLine_eq, if_neg hcond, if_pos (by omega : s.line_counter + 1 = 1)]
  exact ⟨rfl, rfl, rfl⟩

theorem lineResult_first_over_capacity (cfg : Config) (s : DState)
    (raw : List Char)
    (hcap : MAX_TOKEN_COUNT < (lineResult cfg s raw).tok.count) :
    (lineResult cfg s raw).header = s.header
    ∧ (lineResult cfg s raw).validtokencount = s.validtokencount
    ∧ (lineResult cfg s raw).ntokens = 0 := by
  rw [lineResult_tok] at hcap
  unfold lineResult
  rw [TokenizeLine_eq, if_pos (Or.inr hcap)]
  exact ⟨rfl, rfl, rfl⟩

theorem processLine_eq (cfg : Config) (s : DState) (raw : List Char) :
    processLine cfg s raw =
      (⟨(lineResult cfg s raw).header, (lineResult cfg s raw).validtokencount,
          s.line_counter + 1,
          s.ub || (lineResult cfg s raw).tok.ubPop
            || (lineResult cfg s raw).tok.ubWrite⟩,
        (if 2 < s.line_counter + 1 then [',', '\n'] else [])
          ++ (if (lineResult cfg s raw).validtokencount
                  = (lineResult cfg s raw).ntokens ∧ 1 < s.line_counter + 1 then
                buildObject (lineResult cfg s raw).header
                  (lineResult cfg s raw).tok.tokens
                  (lineResult cfg s raw).ntokens
              else [])) := rfl

/-- C4: for every line the driver loop actually processes, the separating
comma and newline are written exactly when the (already incremented) line
counter exceeds 2, before tokenization and validation and independently of
whether the line yields a valid record; for counters 1 and 2 nothing
precedes the (possible) object, which always starts with a brace; however a
line that GetLine reads as empty ends the loop before the separator logic
runs, so no separator is written for it even when its counter exceeds 2. -/
theorem separator_keyed_to_line_position (cfg : Config) (s : DState)
    (raw : List Char) (rest : List (List Char)) :
    (2 < s.line_counter + 1 →
        (processLine cfg s raw).2.take 2 = [',', '\n'])
    ∧ (s.line_counter + 1 ≤ 2 →
        (processLine cfg s raw).2 = []
        ∨ (processLine cfg s raw).2.head? = some '{')
    ∧ runLines cfg s ([] :: rest) =
        (⟨s.header, s.validtokencount, s.line_counter + 1, s.ub⟩, []) := by
  refine ⟨?_, ?_, ?_⟩
  · intro h2
    rw [processLine_eq]
    simp only [if_pos h2]
    rfl
  · intro h2
    rw [processLine_eq]
    simp only [if_neg (by omega : ¬ 2 < s.line_counter + 1), List.nil_append]
    by_cases hv : (lineResult cfg s raw).validtokencount
        = (lineResult cfg s raw).ntokens ∧ 1 < s.line_counter + 1
    · rw [if_pos hv]
      exact Or.inr rfl
    · rw [if_neg hv]
      exact Or.inl rfl
  · rfl

/-- C4 witness: a concrete third line gets the separator as prefix. -/
theorem separator_keyed_to_line_position_witness :
    (processLine defaultConfig ⟨[['a']], 1, 2, false⟩ "x".toList).2.take 2
      = [',', '\n'] :=
  (separator_keyed_to_line_position defaultConfig ⟨[['a']], 1, 2, false⟩
    "x".toList []).1 (by decide)

/-- C5 (amended): a nonempty data row (line counter of the row at least 2)
whose token count differs from validtokencount produces no object and
changes nothing but the line counter — it is dropped silently and the loop
goes on — while a row that GetLine reads as empty ends the loop, the rest of
the input unread; the third conjunct is the loop equation showing that a
nonempty row, valid or not, never stops the run. -/
theorem invalid_record_dropped_silently (cfg : Config) (s : DState)
    (raw : List Char) (rest : List (List Char))
    (hdata : 1 ≤ s.line_counter)
    (hmis : (lineResult cfg s raw).ntokens ≠ s.validtokencount)
    (hpop : (lineResult cfg s raw).tok.ubPop = false)
    (hwrite : (lineResult cfg s raw).tok.ubWrite = false) :
    processLine cfg s raw =
      (⟨s.header, s.validtokencount, s.line_counter + 1, s.ub⟩,
        if 2 < s.line_counter + 1 then [',', '\n'] else [])
    ∧ runLines cfg s ([] :: rest) =
        (⟨s.header, s.validtokencount, s.line_counter + 1, s.ub⟩, [])
    ∧ (raw ≠ [] → runLines cfg s (raw :: rest) =
        ((runLines cfg (processLine cfg s raw).1 rest).1,
          (processLine cfg s raw).2
            ++ (runLines cfg (processLine cfg s raw).1 rest).2)) := by
  obtain ⟨hh, hv, _⟩ := lineResult_not_first cfg s raw (by omega)
  refine ⟨?_, rfl, ?_⟩
  · rw [processLine_eq, hh, hv, hpop, hwrite]
    have hcond : ¬ (s.validtokencount
        = (lineResult cfg s raw).ntokens ∧ 1 < s.line_counter + 1) := by
      intro hboth
      exact hmis hboth.1.symm
    rw [if_neg hcond]
    simp
  · intro hraw
    show (if raw = [] then _ else _) = _
    rw [if_neg hraw]

/-- C5 witness: a three-field row against a two-column header is dropped,
only the separator is written, and the state advances by one line. -/
theorem invalid_record_dropped_silently_witness :
    processLine defaultConfig ⟨[['a'], ['b']], 2, 2, false⟩ "1,2,3".toList
      = (⟨[['a'], ['b']], 2, 3, false⟩, [',', '\n']) := by
  have h := (invalid_record_dropped_silently defaultConfig
    ⟨[['a'], ['b']], 2, 2, false⟩ "1,2,3".toList []
    (by decide) (by decide) (by decide) (by decide)).1
  simpa using h

/-- C6: a data row (line counter at least 2) whose returned token count
equals validtokencount, which in turn is the header length, is emitted as
the JSON object pairing header field i with the row's token i in order,
values verbatim between quotes with no escaping, preceded only by the
position-keyed separator. -/
theorem valid_row_object_round_trip (cfg : Config) (s : DState)
    (raw : List Char)
    (hdata : 1 ≤ s.line_counter)
    (hvalid : (lineResult cfg s raw).ntokens = s.validtokencount)
    (hlen : s.header.length = s.validtokencount) :
    (processLine cfg s raw).2 =
      (if 2 < s.line_counter + 1 then [',', '\n'] else [])
        ++ specObject s.header (lineResult cfg s raw).tok.tokens := by
  obtain ⟨hh, hv, hnt⟩ := lineResult_not_first cfg s raw (by omega)
  rw [processLine_eq]
  have hcond : (lineResult cfg s raw).validtokencount
      = (lineResult cfg s raw).ntokens ∧ 1 < s.line_counter + 1 :=
    ⟨by rw [hv, hvalid], by omega⟩
  rw [if_pos hcond, hh]
  have htl : (lineResult cfg s raw).tok.tokens.length
      = (lineResult cfg s raw).tok.count := by
    rw [lineResult_tok]
    exact tokenize_tokens_length _ _
  have hobj : buildObject s.header (lineResult cfg s raw).tok.tokens
      (lineResult cfg s raw).ntokens
      = specObject s.header (lineResult cfg s raw).tok.tokens := by
    refine buildObject_spec _ _ _ ?_ ?_
    · omega
    · rcases hnt with hz | hcnt
      · omega
      · omega
  rw [hobj]

/-- C6 witness: the row `1,2` against the header `a,b` serializes to the
spec-side object. -/
theorem valid_row_object_round_trip_witness :
    (processLine defaultConfig ⟨[['a'], ['b']], 2, 1, false⟩ "1,2".toList).2
      = specObject [['a'], ['b']]
          (lineResult defaultConfig ⟨[['a'], ['b']], 2, 1, false⟩
            "1,2".toList).tok.tokens := by
  have h := valid_row_object_round_trip defaultConfig
    ⟨[['a'], ['b']], 2, 1, false⟩ "1,2".toList
    (by decide) (by decide) (by decide)
  simpa using h

/- Character provenance: every character of the emitted stream is either a
fixed syntax character or a character of some input line. -/

theorem mem_of_mem_atIdx (fss : List (List Char)) (i : Nat) (c : Char)
    (h : c ∈ atIdx fss i) : ∃ f ∈ fss, c ∈ f := by
  induction fss generalizing i with
  | nil => simp at h
  | cons f fs ih =>
    cases i with
    | zero => exact ⟨f, by simp, h⟩
    | succ j =>
      obtain ⟨g, hg, hc⟩ := ih j h
      exact ⟨g, by simp [hg], hc⟩

theorem mem_of_mem_cppSplitAux (d : Char) (l : List Char) (c : Char) :
    (c ∈ (cppSplitAux d l).1 ∨ ∃ t ∈ (cppSplitAux d l).2, c ∈ t) →
      c ∈ l := by
  induction l with
  | nil => rintro (h | ⟨t, ht, hc⟩) <;> simp_all [cppSplitAux]
  | cons x xs ih =>
    intro h
    by_cases hx : x = d
    · simp only [cppSplitAux, if_pos hx] at h
      rcases h with h | ⟨t, ht, hc⟩
      · simp at h
      · rcases List.mem_cons.mp ht with he | ht2
        · exact List.mem_cons_of_mem x (ih (Or.inl (he ▸ hc)))
        · exact List.mem_cons_of_mem x (ih (Or.inr ⟨t, ht2, hc⟩))
    · simp only [cppSplitAux, if_neg hx] at h
      rcases h with h | ⟨t, ht, hc⟩
      · rcases List.mem_cons.mp h with he | h2
        · exact he ▸ List.mem_cons_self x xs
        · exact List.mem_cons_of_mem x (ih (Or.inl h2))
      · exact List.mem_cons_of_mem x (ih (Or.inr ⟨t, ht, hc⟩))

theorem mem_of_mem_cppSplit (d : Char) (l : List Char) (t : List Char)
    (c : Char) (ht : t ∈ cppSplit d l) (hc : c ∈ t) : c ∈ l := by
  rcases List.mem_cons.mp ht with he | h2
  · exact mem_of_mem_cppSplitAux d l c (Or.inl (he ▸ hc))
  · exact mem_of_mem_cppSplitAux d l c (Or.inr ⟨t, h2, hc⟩)

theorem mem_of_mem_frontToks (ps : List (List Char)) (t : List Char)
    (h : t ∈ frontToks ps) : t ∈ ps := by
  induction ps with
  | nil => simp at h
  | cons p ps ih =>
    cases ps with
    | nil => simp at h
    | cons q qs =>
      rcases List.mem_cons.mp h with he | h2
      · exact he ▸ List.mem_cons_self _ _
      · exact List.mem_cons_of_mem p (ih h2)

theorem lastTok_mem (ps : List (List Char)) (h : ps ≠ []) :
    lastTok ps ∈ ps := by
  induction ps with
  | nil => exact absurd rfl h
  | cons p ps ih =>
    cases ps with
    | nil => simp
    | cons q qs => exact List.mem_cons_of_mem p (ih (by simp))

theorem mem_of_mem_tokenize (d : Char) (inputline : List Char)
    (t : List Char) (c : Char) (ht : t ∈ (Tokenize d inputline).tokens)
    (hc : c ∈ t) : c ∈ inputline := by
  have ht2 : t ∈ frontToks (cppSplit d inputline) ++
      [(lastTok (cppSplit d inputline)).dropLast] := ht
  rcases List.mem_append.mp ht2 with hf | hl
  · exact mem_of_mem_cppSplit d inputline t c
      (mem_of_mem_frontToks _ t hf) hc
  · have he : t = (lastTok (cppSplit d inputline)).dropLast := by
      simpa using hl
    have hc2 : c ∈ lastTok (cppSplit d inputline) :=
      List.dropLast_subset _ (he ▸ hc)
    exact mem_of_mem_cppSplit d inputline _ c
      (lastTok_mem _ (cppSplit_ne_nil d inputline)) hc2

theorem mem_of_mem_charFilter (rs es l : List Char) (c : Char)
    (h : c ∈ CharFilter rs es l) : c = ' ' ∨ c ∈ l := by
  rw [charFilter_eq] at h
  unfold specFilter at h
  have h2 := List.mem_of_mem_filter h
  obtain ⟨a, ha, he⟩ := List.mem_map.mp h2
  by_cases hm : a ∈ rs
  · rw [if_pos hm] at he
    exact Or.inl he.symm
  · rw [if_neg hm] at he
    exact Or.inr (he ▸ ha)

theorem buildEntries_chars (P : Char → Prop)
    (hP : P '"' ∧ P ':' ∧ P ',') (hdr toks : List (List Char))
    (hh : ∀ t ∈ hdr, ∀ c ∈ t, P c) (htk : ∀ t ∈ toks, ∀ c ∈ t, P c)
    (n : Nat) : ∀ (f ctr : Nat), ∀ c ∈ buildEntries hdr toks n ctr f, P c := by
  intro f
  induction f with
  | zero => intro ctr c hc; simp [buildEntries] at hc
  | succ f ih =>
    intro ctr c hc
    by_cases hlt : ctr < n
    · simp only [buildEntries, if_pos hlt] at hc
      rcases List.mem_append.mp hc with hcE | hcR
      · have hd : c = '"' ∨ c = ':' ∨ c = ','
            ∨ c ∈ atIdx hdr ctr ∨ c ∈ atIdx toks ctr := by
          split at hcE <;> · simp at hcE; tauto
        rcases hd with h1 | h1 | h1 | h1 | h1
        · exact h1 ▸ hP.1
        · exact h1 ▸ hP.2.1
        · exact h1 ▸ hP.2.2
        · obtain ⟨g, hg, hcg⟩ := mem_of_mem_atIdx hdr ctr c h1
          exact hh g hg c hcg
        · obtain ⟨g, hg, hcg⟩ := mem_of_mem_atIdx toks ctr c h1
          exact htk g hg c hcg
      · exact ih (ctr + 1) c hcR
    · simp [buildEntries, if_neg hlt] at hc

theorem buildObject_chars (P : Char → Prop)
    (hP : P '{' ∧ P '}' ∧ P '"' ∧ P ':' ∧ P ',')
    (hdr toks : List (List Char))
    (hh : ∀ t ∈ hdr, ∀ c ∈ t, P c) (htk : ∀ t ∈ toks, ∀ c ∈ t, P c)
    (n : Nat) : ∀ c ∈ buildObject hdr toks n, P c := by
  intro c hc
  unfold buildObject at hc
  have hd : c = '{' ∨ c = '}' ∨ c ∈ buildEntries hdr toks n 0 n := by
    simp only [List.mem_cons, List.mem_append, List.mem_singleton] at hc
    tauto
  rcases hd with h1 | h1 | h1
  · exact h1 ▸ hP.1
  · exact h1 ▸ hP.2.1
  · exact buildEntries_chars P ⟨hP.2.2.1, hP.2.2.2⟩ hdr toks hh htk n n 0 c h1

theorem processLine_chars (P : Char → Prop)
    (hP : P ' ' ∧ P '{' ∧ P '}' ∧ P '"' ∧ P ':' ∧ P ',' ∧ P '\n')
    (cfg : Config) (s : DState) (raw : List Char)
    (hs : ∀ t ∈ s.header, ∀ c ∈ t, P c) (hr : ∀ c ∈ raw, P c) :
    (∀ t ∈ (processLine cfg s raw).1.header, ∀ c ∈ t, P c)
    ∧ (∀ c ∈ (processLine cfg s raw).2, P c) := by
  have hinput : ∀ c ∈ CharFilter cfg.replacewithspace cfg.erasechars raw
      ++ [' '], P c := by
    intro c hc
    rcases List.mem_append.mp hc with h1 | h2
    · rcases mem_of_mem_charFilter _ _ _ c h1 with he | hm
      · exact he ▸ hP.1
      · exact hr c hm
    · have he : c = ' ' := by simpa using h2
      exact he ▸ hP.1
  have htoks : ∀ t ∈ (lineResult cfg s raw).tok.tokens, ∀ c ∈ t, P c := by
    rw [lineResult_tok]
    intro t ht c hc
    exact hinput c (mem_of_mem_tokenize _ _ t c ht hc)
  have hhdr : ∀ t ∈ (lineResult cfg s raw).header, ∀ c ∈ t, P c := by
    unfold lineResult
    rw [TokenizeLine_eq]
    by_cases hc1 : (Tokenize cfg.delimiter
        (CharFilter cfg.replacewithspace cfg.erasechars raw ++ [' '])).count = 0
        ∨ MAX_TOKEN_COUNT < (Tokenize cfg.delimiter
          (CharFilter cfg.replacewithspace cfg.erasechars raw ++ [' '])).count
    · rw [if_pos hc1]; exact hs
    · rw [if_neg hc1]
      by_cases hc2 : s.line_counter + 1 = 1
      · rw [if_pos hc2]
        intro t ht
        rcases List.mem_append.mp ht with h1 | h2
        · exact hs t h1
        · have h3 : t ∈ (lineResult cfg s raw).tok.tokens := by
            rw [lineResult_tok]; exact h2
          exact htoks t h3
      · rw [if_neg hc2]; exact hs
  constructor
  · rw [processLine_eq]; exact hhdr
  · rw [processLine_eq]
    intro c hc
    simp only [List.mem_append] at hc
    rcases hc with h1 | h2
    · split at h1
      · simp only [List.mem_cons] at h1
        rcases h1 with he | he | he
        · exact he ▸ hP.2.2.2.2.2.1
        · exact he ▸ hP.2.2.2.2.2.2
        · simp at he
      · simp at h1
    · split at h2
      · exact buildObject_chars P
          ⟨hP.2.1, hP.2.2.1, hP.2.2.2.1, hP.2.2.2.2.1, hP.2.2.2.2.2.1⟩
          _ _ hhdr htoks _ c h2
      · simp at h2

theorem runLines_chars (P : Char → Prop)
    (hP : P ' ' ∧ P '{' ∧ P '}' ∧ P '"' ∧ P ':' ∧ P ',' ∧ P '\n')
    (cfg : Config) : ∀ (lines : List (List Char)) (s : DState),
    (∀ t ∈ s.header, ∀ c ∈ t, P c) → (∀ l ∈ lines, ∀ c ∈ l, P c) →
    (∀ t ∈ (runLines cfg s lines).1.header, ∀ c ∈ t, P c)
    ∧ (∀ c ∈ (runLines cfg s lines).2, P c) := by
  intro lines
  induction lines with
  | nil =>
    intro s hs _
    exact ⟨hs, by intro c hc; simp [runLines] at hc⟩
  | cons raw rest ih =>
    intro s hs hl
    by_cases hraw : raw = []
    · constructor
      · show ∀ t ∈ (if raw = [] then _ else _ :
            DState × List Char).1.header, ∀ c ∈ t, P c
        rw [if_pos hraw]
        exact hs
      · show ∀ c ∈ (if raw = [] then _ else _ : DState × List Char).2, P c
        rw [if_pos hraw]
        intro c hc
        simp at hc
    · obtain ⟨hph, hpe⟩ := processLine_chars P hP cfg s raw hs
        (hl raw (by simp))
      obtain ⟨hrh, hre⟩ := ih (processLine cfg s raw).1 hph
        (fun l h2 => hl l (by simp [h2]))
      constructor
      · show ∀ t ∈ (if raw = [] then _ else _ :
            DState × List Char).1.header, ∀ c ∈ t, P c
        rw [if_neg hraw]
        exact hrh
      · show ∀ c ∈ (if raw = [] then _ else _ : DState × List Char).2, P c
        rw [if_neg hraw]
        intro c hc
        rcases List.mem_append.mp hc with h1 | h2
        · exact hpe c h1
        · exact hre c h2

theorem runLines_single (cfg : Config) (s : DState) (raw : List Char)
    (hraw : raw ≠ []) :
    runLines cfg s [raw] =
      (⟨(processLine cfg s raw).1.header,
        (processLine cfg s raw).1.validtokencount,
        (processLine cfg s raw).1.line_counter + 1,
        (processLine cfg s raw).1.ub⟩,
        (processLine cfg s raw).2 ++ []) := by
  show (if raw = [] then _ else _) = _
  rw [if_neg hraw]
  rfl

theorem runLines_single_state (cfg : Config) (s : DState) (raw : List Char)
    (hraw : raw ≠ []) :
    (runLines cfg s [raw]).1.header = (lineResult cfg s raw).header
    ∧ (runLines cfg s [raw]).1.validtokencount
      = (lineResult cfg s raw).validtokencount := by
  rw [runLines_single cfg s raw hraw, processLine_eq]
  exact ⟨rfl, rfl⟩

/-- C1 (counterexample): the run on `id,name` / `1,alpha` / `2,beta` with the
default configuration does not produce the claimed byte string — the code
writes a newline after the separating comma (line 202 writes `',' << '\n'`). -/
theorem generate_json_two_rows_not_claimed_exact :
    (GenerateJson defaultConfig
        ["id,name".toList, "1,alpha".toList, "2,beta".toList]).1
      ≠ "[\x7b\"id\":\"1\",\"name\":\"alpha\"\x7d,\x7b\"id\":\"2\",\"name\":\"beta\"\x7d]".toList := by
  decide

/-- C1 (amended): the run on `id,name` / `1,alpha` / `2,beta` with the
default configuration produces exactly the claimed output except that the
single separating comma is followed by one newline; brackets balanced, no
trailing comma, no undefined behaviour. -/
theorem generate_json_two_rows_output :
    (GenerateJson defaultConfig
        ["id,name".toList, "1,alpha".toList, "2,beta".toList]).1
      = "[\x7b\"id\":\"1\",\"name\":\"alpha\"\x7d,\n\x7b\"id\":\"2\",\"name\":\"beta\"\x7d]".toList
    ∧ (GenerateJson defaultConfig
        ["id,name".toList, "1,alpha".toList, "2,beta".toList]).2 = false := by
  decide

/-- C2 (code bug): a line of 4096 commas under the default comma delimiter
makes the tokenizing loop of Tokenize assign the array slot with index
MAX_TOKEN_COUNT = 4096, one past the last valid index of the
`std::array<std::string, MAX_TOKEN_COUNT>` token buffer — the loop has no
bounds check, the capacity test of TokenizeLine runs only afterwards — and
TokenizeLine then reports the line as unusable with a token count of zero. -/
theorem token_buffer_overflow_at_capacity_exceeding_line :
    MAX_TOKEN_COUNT ∈
      tokenizeWriteIndices ',' (List.replicate 4096 ',' ++ [' '])
    ∧ (TokenizeLine ',' 2 [] 2 (List.replicate 4096 ',')).ntokens = 0 := by
  have hcount : (Tokenize ',' (List.replicate 4096 ',' ++ [' '])).count
      = 4097 := cppSplit_comma_line_length
  constructor
  · show MAX_TOKEN_COUNT ∈
      List.range (cppSplit ',' (List.replicate 4096 ',' ++ [' '])).length
    rw [cppSplit_comma_line_length]
    refine List.mem_range.mpr ?_
    norm_num [MAX_TOKEN_COUNT]
  · rw [TokenizeLine_eq,
      if_pos (Or.inr (by rw [hcount]; norm_num [MAX_TOKEN_COUNT]))]

/-- C3 (counterexample): a nonempty first line of 4096 commas tokenizes to
4097 fields, more than the capacity, and TokenizeLine returns before the
header-capture branch: after the run the header is still empty and
validtokencount is still 0, so a capacity-exceeding first line is *not*
accepted as the header. -/
theorem over_capacity_first_line_header_not_captured :
    (List.replicate 4096 ',' : List Char) ≠ []
    ∧ (runLines defaultConfig initialState
        [List.replicate 4096 ',']).1.header = []
    ∧ (runLines defaultConfig initialState
        [List.replicate 4096 ',']).1.validtokencount = 0 := by
  have hne : (List.replicate 4096 ',' : List Char) ≠ [] := by
    intro h
    have h2 := congrArg List.length h
    rw [List.length_replicate, List.length_nil] at h2
    omega
  have hover : MAX_TOKEN_COUNT <
      (lineResult defaultConfig initialState
        (List.replicate 4096 ',')).tok.count := by
    rw [lineResult_tok]
    show MAX_TOKEN_COUNT <
      (cppSplit ',' (List.replicate 4096 ',' ++ [' '])).length
    rw [cppSplit_comma_line_length]
    norm_num [MAX_TOKEN_COUNT]
  obtain ⟨hh, hv, _⟩ := lineResult_first_over_capacity defaultConfig
    initialState (List.replicate 4096 ',') hover
  refine ⟨hne, ?_, ?_⟩
  · rw [(runLines_single_state defaultConfig initialState _ hne).1, hh]
    rfl
  · rw [(runLines_single_state defaultConfig initialState _ hne).2, hv]
    rfl

/-- C3 (amended): the first line read (line counter 1) is captured verbatim
as the header, and validtokencount is set to its token count, exactly when
that count is within MAX_TOKEN_COUNT (a count of zero cannot occur); a
capacity-exceeding first line leaves header and validtokencount untouched;
and on every later line (counter at least 2) the header and validtokencount
are never modified. -/
theorem header_capture_characterization (cfg : Config) (s : DState)
    (raw : List Char) :
    (s.line_counter = 0 →
        (lineResult cfg s raw).tok.count ≤ MAX_TOKEN_COUNT →
        (processLine cfg s raw).1.header
            = s.header ++ (lineResult cfg s raw).tok.tokens
        ∧ (processLine cfg s raw).1.validtokencount
            = (lineResult cfg s raw).tok.count)
    ∧ (s.line_counter = 0 →
        MAX_TOKEN_COUNT < (lineResult cfg s raw).tok.count →
        (processLine cfg s raw).1.header = s.header
        ∧ (processLine cfg s raw).1.validtokencount = s.validtokencount)
    ∧ (1 ≤ s.line_counter →
        (processLine cfg s raw).1.header = s.header
        ∧ (processLine cfg s raw).1.validtokencount = s.validtokencount) := by
  refine ⟨?_, ?_, ?_⟩
  · intro h0 hcap
    obtain ⟨hh, hv, _⟩ :=
      lineResult_first_within_capacity cfg s raw h0 hcap
    rw [processLine_eq]
    exact ⟨hh, hv⟩
  · intro h0 hcap
    obtain ⟨hh, hv, _⟩ := lineResult_first_over_capacity cfg s raw hcap
    rw [processLine_eq]
    exact ⟨hh, hv⟩
  · intro h1
    obtain ⟨hh, hv, _⟩ := lineResult_not_first cfg s raw (by omega)
    rw [processLine_eq]
    exact ⟨hh, hv⟩

/-- C3 witness: the first line `a,b` is captured as the header with
validtokencount 2, and a later line does not modify the header. -/
theorem header_capture_characterization_witness :
    ((processLine defaultConfig initialState "a,b".toList).1.header
        = [] ++ (lineResult defaultConfig initialState "a,b".toList).tok.tokens
      ∧ (processLine defaultConfig initialState "a,b".toList).1.validtokencount
        = (lineResult defaultConfig initialState "a,b".toList).tok.count)
    ∧ ((processLine defaultConfig ⟨[['a'], ['b']], 2, 3, false⟩
          "zz".toList).1.header = [['a'], ['b']]) := by
  constructor
  · exact (header_capture_characterization defaultConfig initialState
      "a,b".toList).1 rfl (by decide)
  · exact ((header_capture_characterization defaultConfig
      ⟨[['a'], ['b']], 2, 3, false⟩ "zz".toList).2.2 (by decide)).1

/-- C8 (counterexample): with the space delimiter — a configuration the
program offers — the sentinel collides with the delimiter: an empty input
line tokenizes to two fields, not one, and the final pop_back is applied to
an empty token. -/
theorem space_delimiter_empty_line_two_fields :
    (TokenizeLine ' ' 2 [] 1 []).ntokens = 2
    ∧ (TokenizeLine ' ' 2 [] 1 []).tok.ubPop = true := by
  decide

/-- C8 (amended): for every configured delimiter other than the space
character the sentinel mechanism has exactly the stated net effect: the
tokens of `line ++ " "` after the final pop_back are precisely the plain
delimiter split of the raw line (so a trailing delimiter yields a final
empty field and no character of the last field is lost), the count is its
length, the pop_back never hits an empty token; an empty line yields one
empty field (count 1) and a line of L delimiters yields L + 1 empty
fields. -/
theorem tokenizer_sentinel_net_effect (d : Char) (hd : d ≠ ' ')
    (l : List Char) (L : Nat) :
    (Tokenize d (l ++ [' '])).tokens = cppSplit d l
    ∧ (Tokenize d (l ++ [' '])).count = (cppSplit d l).length
    ∧ (Tokenize d (l ++ [' '])).ubPop = false
    ∧ (l = [] →
        (Tokenize d (l ++ [' '])).tokens = [[]]
        ∧ (Tokenize d (l ++ [' '])).count = 1)
    ∧ (l = List.replicate L d →
        (Tokenize d (l ++ [' '])).tokens = List.replicate (L + 1) []
        ∧ (Tokenize d (l ++ [' '])).count = L + 1) := by
  obtain ⟨ht, hc, hp⟩ := tokenize_sentinel d hd l
  have hrep : cppSplit d (List.replicate L d) = List.replicate (L + 1) [] := by
    have h1 := cppSplit_replicate_delim d L []
    rw [List.append_nil] at h1
    rw [h1, cppSplit_nil, ← List.replicate_succ']
  refine ⟨ht, hc, hp, ?_, ?_⟩
  · intro he
    subst he
    exact ⟨by rw [ht, cppSplit_nil], by rw [hc, cppSplit_nil]; rfl⟩
  · intro he
    subst he
    refine ⟨by rw [ht, hrep], ?_⟩
    rw [hc, hrep, List.length_replicate]

/-- C8 witness: the net-effect theorem evaluated at the comma delimiter on
the empty line. -/
theorem tokenizer_sentinel_net_effect_witness :
    (Tokenize ',' (([] : List Char) ++ [' '])).tokens = [[]]
    ∧ (Tokenize ',' (([] : List Char) ++ [' '])).count = 1 :=
  (tokenizer_sentinel_net_effect ',' (by decide) [] 0).2.2.2.1 rfl

/-- C9: the character filter of the driver loop first replaces every
occurrence of any replace-set character with a single space, then removes
every occurrence of any erase-set character, in that fixed order — the
folded per-character passes of the source equal the one-pass description of
the specification — with empty sets the line is unchanged, and the driver
tokenizes exactly the filtered line. -/
theorem char_filter_replace_then_erase (cfg : Config) (s : DState)
    (replaceSet eraseSet line : List Char) :
    CharFilter replaceSet eraseSet line = specFilter replaceSet eraseSet line
    ∧ CharFilter [] [] line = line
    ∧ lineResult cfg s line
      = TokenizeLine cfg.delimiter (s.line_counter + 1) s.header
          s.validtokencount
          (CharFilter cfg.replacewithspace cfg.erasechars line) :=
  ⟨charFilter_eq replaceSet eraseSet line, rfl, rfl⟩

/-- C10 (code bug): with the space delimiter — offered by the program as the
`space` option — the appended sentinel `" "` is itself a delimiter, the
final produced token is empty, and `tokens[column - 1].pop_back ()` is
applied to an empty std::string (undefined behaviour); so the removal of the
trailing placeholder is not total over the configured delimiters. -/
theorem pop_back_on_empty_token_with_space_delimiter :
    (TokenizeLine ' ' 2 [] 3 "a b".toList).tok.ubPop = true
    ∧ (TokenizeLine ',' 2 [] 3 "a b".toList).tok.ubPop = false := by
  decide

/-- C4 (counterexample): on the input `a,b` / `1,2` / empty line, the third
input line has line counter 3, yet no separating comma-newline is written
for it: GetLine returns size 0 for the empty line and the loop exits before
the separator logic runs.  The whole output holds no newline at all. -/
theorem no_separator_for_empty_third_line :
    (GenerateJson defaultConfig ["a,b".toList, "1,2".toList, []]).1
      = "[\x7b\"a\":\"1\",\"b\":\"2\"\x7d]".toList
    ∧ ((GenerateJson defaultConfig
        ["a,b".toList, "1,2".toList, []]).1).count '\n' = 0 := by
  decide

/-- C5 (counterexample): on the input `a,b` / empty line / `1,2` the run
stops at the empty second line and emits just `[]`: the valid data row
`1,2` that follows is never read, so processing does not continue with the
next line to normal completion. -/
theorem empty_line_halts_processing :
    (GenerateJson defaultConfig ["a,b".toList, [], "1,2".toList]).1
      = "[]".toList
    ∧ (GenerateJson defaultConfig ["a,b".toList, [], "1,2".toList]).2
      = false := by
  decide

/-- C7 (counterexample): field values are written verbatim, so the input
`a,b` / `[,]` produces an output in which the character `[` occurs twice —
the array-open bracket and the bracket inside the first field value — hence
`[` is not written exactly once over the whole run. -/
theorem bracket_in_field_written_twice :
    ((GenerateJson defaultConfig ["a,b".toList, "[,]".toList]).1).count '['
      = 2 := by
  decide

/-- C7 (amended): for every configuration and input, the first character of
the output is the array-open `[` and the last is the array-close `]`; and
whenever no input line contains a bracket character, `[` and `]` each occur
exactly once in the whole output. -/
theorem array_framing_first_and_last (cfg : Config)
    (lines : List (List Char)) :
    (GenerateJson cfg lines).1.head? = some '['
    ∧ (GenerateJson cfg lines).1.getLast? = some ']'
    ∧ ((∀ l ∈ lines, ∀ c ∈ l, c ≠ '[' ∧ c ≠ ']') →
        (GenerateJson cfg lines).1.count '[' = 1
        ∧ (GenerateJson cfg lines).1.count ']' = 1) := by
  refine ⟨rfl, ?_, ?_⟩
  · show ('[' :: (runLines cfg initialState lines).2 ++ [']']).getLast?
      = some ']'
    exact List.getLast?_concat _
  · intro hfree
    have hP := runLines_chars (fun c => c ≠ '[' ∧ c ≠ ']')
      ⟨by decide, by decide, by decide, by decide, by decide, by decide,
        by decide⟩ cfg lines initialState
      (by intro t ht; simp [initialState] at ht) hfree
    have hopen : (runLines cfg initialState lines).2.count '[' = 0 :=
      List.count_eq_zero.mpr (fun h => (hP.2 '[' h).1 rfl)
    have hclose : (runLines cfg initialState lines).2.count ']' = 0 :=
      List.count_eq_zero.mpr (fun h => (hP.2 ']' h).2 rfl)
    constructor
    · show ('[' :: (runLines cfg initialState lines).2 ++ [']']).count '['
        = 1
      rw [List.count_append, List.count_cons, hopen]
      decide
    · show ('[' :: (runLines cfg initialState lines).2 ++ [']']).count ']'
        = 1
      rw [List.count_append, List.count_cons, hclose]
      decide

/-- C7 witness: the framing evaluated on the empty input, where the output
is exactly the two bracket characters. -/
theorem array_framing_first_and_last_witness :
    (GenerateJson defaultConfig []).1.count '[' = 1
    ∧ (GenerateJson defaultConfig []).1.head? = some '[' := by
  have h := array_framing_first_and_last defaultConfig []
  exact ⟨(h.2.2 (by intro l hl; simp at hl)).1, h.1⟩

end FastCsv2Json
